import Mathlib

/-!
Verification of the `NamedTuple` factory in `Lib/collections.py`.

The factory takes a type name and a field specification, validates the
names, generates the source text of a `tuple` subclass, and `exec`s it.
We embed each step as an executable Lean definition:

* `parseFields` — `tuple(s.replace(',', ' ').split())`;
* `validNames` — the `isalnum` validation of the joined names;
* `mangle` — CPython private-name mangling, applied by the compiler to
  every identifier of the generated class body, including the parameters
  of the generated `__new__` and the targets of the property lines;
* `compileOk` — whether CPython can compile the generated class source
  (legal identifiers, and the parameter list `cls, <mangled fields>` of
  the generated `__new__` free of duplicates);
* `execOk` — whether running the compiled class body and creating the
  type succeeds (a field whose property line shadows `itemgetter` or
  `property` before a later line uses them, or a field named
  `__slots__`, makes `exec` raise a `TypeError` at run time);
* `classAttr` — the final binding of a name in the class namespace: the
  body assigns `__slots__`, `__fields__`, `__new__`, `__repr__` and
  `__replace__` first and then one `property(itemgetter(i))` line per
  field, so a later property line overwrites a same-named earlier
  member;
* `namedTupleFields` / `NamedTuple` — the whole factory;
* `bindArgs` — CPython call binding, applied to the mangled parameter
  names of the generated `__new__`;
* `getattrField` / `constructNT` / `replaceFieldOp` / `pyRepr` /
  `fieldsAttr` — attribute access, construction, `__replace__`,
  `__repr__` and the `__fields__` attribute, each resolved through
  `classAttr` so that shadowed members behave as in the program.

Python exception classes are embedded as the inductive `PyError`; the
spec's `InvalidNameError` is the `ValueError` raised by the validation
line (`PyError.valueError`), a `SyntaxError` raised while compiling the
generated class source is `PyError.compileError`, and a `TypeError`
raised because a property shadows a generated callable member is
`PyError.notCallable`.

A record instance is a `List α` (the underlying tuple); instances are
immutable, so every operation returns a new list and never changes its
argument.
-/

/-- Python `str.split()` whitespace: space, tab, newline, CR, vertical
tab and form feed. -/
def pySpace (c : Char) : Bool :=
  c = ' ' || c = '\t' || c = '\n' || c = '\r' || c = '\x0b' || c = '\x0c'

/-- Word accumulator for `splitWs`; mirrors Python `str.split()` with no
argument: runs of whitespace separate words, empty words are dropped. -/
def splitWsAux : List Char → List Char → List String
  | [], [] => []
  | [], acc => [String.mk acc.reverse]
  | c :: cs, acc =>
    if pySpace c then
      match acc with
      | [] => splitWsAux cs []
      | _ => String.mk acc.reverse :: splitWsAux cs []
    else splitWsAux cs (c :: acc)

/-- Python `str.split()` on a char list. -/
def splitWs (l : List Char) : List String := splitWsAux l []

/-- `s.replace(',', ' ')` on one character. -/
def commaToSpace (c : Char) : Char := if c = ',' then ' ' else c

/-- `tuple(s.replace(',', ' ').split())`: field names separated by
spaces and/or commas. -/
def parseFields (s : String) : List String :=
  splitWs (s.toList.map commaToSpace)

/-- Join names with a single separator string, used to state that the
space-separated and comma-separated spellings of one field list are the
same specification. -/
def sepJoin (sep : String) : List String → String
  | [] => ""
  | [x] => x
  | x :: y :: rest => x ++ sep ++ sepJoin sep (y :: rest)

/-- `''.join(...)`: concatenation of a list of strings. -/
def strJoin : List String → String
  | [] => ""
  | s :: rest => s ++ strJoin rest

/-- `s.replace('_', '')`: remove every underscore. -/
def stripUnderscore (s : String) : String :=
  String.mk (s.toList.filter (fun c => c ≠ '_'))

/-- Python `str.isalnum()`: non-empty and every character alphanumeric
(ASCII fragment of the Unicode classing, which is all the generated
identifiers use). -/
def pyIsAlnum (s : String) : Bool :=
  !s.toList.isEmpty && s.toList.all Char.isAlphanum

/-- The validation line of the factory:
`''.join((typename,) + field_names).replace('_', '').isalnum()`. -/
def validNames (typename : String) (fieldNames : List String) : Bool :=
  pyIsAlnum (stripUnderscore (strJoin (typename :: fieldNames)))

/-- Python reserved words: a name equal to one of these cannot be used
as a class name or parameter name in the generated source. -/
def pyKeywords : List String :=
  ["False", "None", "True", "and", "as", "assert", "break", "class",
   "continue", "def", "del", "elif", "else", "except", "finally", "for",
   "from", "global", "if", "import", "in", "is", "lambda", "nonlocal",
   "not", "or", "pass", "raise", "return", "try", "while", "with",
   "yield"]

/-- Boolean membership in a list of strings. -/
def memB (x : String) : List String → Bool
  | [] => false
  | y :: rest => x = y || memB x rest

/-- A string is a legal Python identifier: non-empty, first character a
letter or underscore, the rest alphanumeric or underscore, and not a
reserved word. -/
def isPyIdent (s : String) : Bool :=
  match s.toList with
  | [] => false
  | c :: cs =>
    (c.isAlpha || c = '_') && cs.all (fun d => d.isAlphanum || d = '_')
      && !(memB s pyKeywords)

/-- Pairwise distinctness of a list of strings (Boolean). -/
def distinctB : List String → Bool
  | [] => true
  | x :: rest => !(memB x rest) && distinctB rest

/-- CPython private-name mangling inside the body of
`class <typename>`: an identifier with at least two leading underscores
and at most one trailing underscore is rewritten to
`_<typename stripped of leading underscores><name>`; when the stripped
class name is empty no mangling happens. The compiler applies this to
every identifier of the class body, including the parameter names of
the generated `__new__` and the assignment targets of the generated
property lines — but not to string literals, so `__fields__`'s contents
and the `reprtxt` format keep the raw field names. -/
def mangle (typename name : String) : String :=
  let stripped := typename.toList.dropWhile (fun c => c = '_')
  if name.toList.take 2 = ['_', '_'] ∧
      ¬ (name.toList.reverse.take 2 = ['_', '_']) ∧ ¬ (stripped = [])
  then String.mk ('_' :: stripped) ++ name
  else name

/-- A field name that stays out of the class machinery: it begins with
a letter rather than an underscore, so it is never privately mangled
and cannot collide with any special `__...__` member of the generated
class body. -/
def safeField (f : String) : Bool :=
  match f.toList with
  | [] => false
  | c :: _ => !(c = '_')

/-- The parameter list of the generated
`def __new__(cls, f1, ..., fn)` as the compiler sees it: `cls` followed
by the mangled field names. -/
def newParams (typename : String) (fieldNames : List String) :
    List String :=
  "cls" :: fieldNames.map (mangle typename)

/-- Whether CPython can compile the class source the factory generates:
the type name and every field name must be a legal identifier, and the
parameters of the generated `__new__` — `cls` plus the mangled field
names — must be pairwise distinct (a duplicate parameter is a
`SyntaxError`). -/
def compileOk (typename : String) (fieldNames : List String) : Bool :=
  isPyIdent typename && fieldNames.all isPyIdent &&
    distinctB (newParams typename fieldNames)

/-- A property line assigning `itemgetter` or `property` breaks every
later property line, which still has to call those names: true when
some non-last assigned name is one of them. -/
def badShadow : List String → Bool
  | [] => false
  | [_] => false
  | x :: y :: rest =>
    x = "itemgetter" || x = "property" || badShadow (y :: rest)

/-- Whether `exec` of the compiled class body succeeds at run time: a
field whose property line rebinds `itemgetter` or `property` before the
last line makes the next line call a property object (`TypeError`), and
a field named `__slots__` leaves a property object where type creation
expects a sequence of slot names (`TypeError`). -/
def execOk (typename : String) (fieldNames : List String) : Bool :=
  let m := fieldNames.map (mangle typename)
  !(memB "__slots__" m) && !(badShadow m)

/-- Embedded Python exceptions raised by the factory and by the
generated type's methods. `valueError` is the explicit
`raise ValueError(...)` of the validation line (the spec's
`InvalidNameError`); `compileError` is a `SyntaxError` from compiling
the generated class source; `execError` is a `TypeError` raised while
running the compiled class body or creating the type;
`attributeError` is raised when a method is looked up on an object that
lacks it; `notCallable` is the `TypeError` from calling a property
object that shadows a generated callable member; `formatError` is the
`TypeError` of `%`-formatting with a value-count mismatch; the
remaining constructors are the `TypeError`s of CPython call binding. -/
inductive PyError where
  | valueError
  | compileError
  | execError
  | attributeError
  | notCallable
  | formatError
  | tooManyPositional
  | unexpectedKeyword (name : String)
  | multipleValues (name : String)
  | missingArgument
  deriving DecidableEq

/-- Decidable equality for `Except`, so results of the factory and of
the generated methods can be compared by `decide`. -/
instance {ε α : Type} [DecidableEq ε] [DecidableEq α] :
    DecidableEq (Except ε α) := fun x y =>
  match x, y with
  | .error a, .error b =>
    if h : a = b then .isTrue (by rw [h]) else .isFalse (by simp [h])
  | .error _, .ok _ => .isFalse (by simp)
  | .ok _, .error _ => .isFalse (by simp)
  | .ok a, .ok b =>
    if h : a = b then .isTrue (by rw [h]) else .isFalse (by simp [h])

/-- A generated record type: its name and its ordered field names.
Values of this structure are only produced by the factory. -/
structure RecordType where
  name : String
  fields : List String
  deriving DecidableEq

/-- The factory after field-name parsing: validate the names, then
`exec` the generated class source — which first compiles it (a
`SyntaxError` escapes here) and then runs the class body and creates
the type (a run-time `TypeError` escapes here). A returned type records
only the name and the declared field list; what survives in its class
namespace is computed by `classAttr`. -/
def namedTupleFields (typename : String) (fieldNames : List String) :
    Except PyError RecordType :=
  if !validNames typename fieldNames then .error .valueError
  else if !compileOk typename fieldNames then .error .compileError
  else if !execOk typename fieldNames then .error .execError
  else .ok ⟨typename, fieldNames⟩

/-- `NamedTuple` applied to a string field specification. -/
def NamedTupleStr (typename : String) (s : String) :
    Except PyError RecordType :=
  namedTupleFields typename (parseFields s)

/-- The dynamic type of the `s` argument: a Python `str`, or a sequence
(list) of strings. -/
inductive FieldSpec where
  | str (s : String)
  | seq (names : List String)
  deriving DecidableEq

/-- The full factory. Its first action on `s` is `s.replace(',', ' ')`:
a string method, so passing a sequence raises `AttributeError` (Python
lists have no `replace` method). -/
def NamedTuple (typename : String) (spec : FieldSpec) :
    Except PyError RecordType :=
  match spec with
  | .str s => NamedTupleStr typename s
  | .seq _ => .error .attributeError

/-- A member of the generated class namespace: the `__slots__`
assignment, the `__fields__` tuple, the three generated methods, or the
accessor property of field `i`. -/
inductive ClassMember where
  | slotsAttr
  | fieldsList
  | newMethod
  | reprMethod
  | replaceMethod
  | prop (i : Nat)
  deriving DecidableEq

/-- Index of the last generated property line whose (mangled) target is
`name`: the class body runs `mangle(f_i) = property(itemgetter(i))` in
field order, and a later assignment to the same name wins. -/
def lastPropIdx (typename : String) : List String → String → Option Nat
  | [], _ => none
  | f :: fs, name =>
    match lastPropIdx typename fs name with
    | some j => some (j + 1)
    | none => if mangle typename f = name then some 0 else none

/-- The final binding of `name` in the generated class namespace. The
body assigns `__slots__`, `__fields__`, `__new__`, `__repr__` and
`__replace__`, then one property line per field; the property lines
come last, so a field whose mangled name collides with one of the
earlier members overwrites it. -/
def classAttr (typename : String) (fields : List String)
    (name : String) : Option ClassMember :=
  match lastPropIdx typename fields name with
  | some i => some (.prop i)
  | none =>
    if name = "__slots__" then some .slotsAttr
    else if name = "__fields__" then some .fieldsList
    else if name = "__new__" then some .newMethod
    else if name = "__repr__" then some .reprMethod
    else if name = "__replace__" then some .replaceMethod
    else none

/-- The class-level `__fields__ = %(field_names)r` attribute of the
generated type: the raw field-name tuple, unless a field named
`__fields__` had its property line overwrite it (`none` then: the
attribute is an accessor, not the list). -/
def fieldsAttr (typename : String) (fields : List String) :
    Option (List String) :=
  match classAttr typename fields "__fields__" with
  | some .fieldsList => some fields
  | _ => none

/-- First-match association lookup, the observable behaviour of a
Python `dict` whose entries are listed with distinct keys. -/
def alookup : List (String × α) → String → Option α
  | [], _ => none
  | (k, v) :: rest, key => if key = k then some v else alookup rest key

/-- One `dict` insertion: overwrite the value at an existing key, else
append a new entry (Python dicts keep first-insertion order). -/
def dictInsert (d : List (String × α)) (k : String) (v : α) :
    List (String × α) :=
  if d.any (fun q => q.1 = k) then
    d.map (fun q => if q.1 = k then (k, v) else q)
  else d ++ [(k, v)]

/-- `dict(pairs)`: insert the pairs left to right, later entries
overriding earlier ones. -/
def dictFromList (l : List (String × α)) : List (String × α) :=
  l.foldl (fun d kv => dictInsert d kv.1 kv.2) []

/-- Bind keyword arguments to the parameters not filled positionally,
in parameter order; `none` when a parameter is missing. -/
def fillRest (kw : List (String × α)) : List String → Option (List α)
  | [] => some []
  | f :: fs =>
    match alookup kw f, fillRest kw fs with
    | some v, some vs => some (v :: vs)
    | _, _ => none

/-- CPython call binding for the generated
`def __new__(cls, f1, ..., fn)`: all parameters required, no defaults,
no varargs. Positional arguments fill the leading parameters; a keyword
for an already-filled parameter is a "got multiple values" `TypeError`;
a keyword not naming a parameter is an "unexpected keyword argument"
`TypeError`; an unfilled parameter is a "missing argument" `TypeError`.
(When several bindings are simultaneously wrong CPython's choice of
which `TypeError` to report first is not depended on here.) -/
def bindArgs (params : List String) (pos : List α)
    (kw : List (String × α)) : Except PyError (List α) :=
  if params.length < pos.length then .error .tooManyPositional
  else
    match (kw.map Prod.fst).find? (fun k => !(memB k params)) with
    | some k => .error (.unexpectedKeyword k)
    | none =>
      match (params.take pos.length).find?
          (fun f => (alookup kw f).isSome) with
      | some f => .error (.multipleValues f)
      | none =>
        match fillRest kw (params.drop pos.length) with
        | some rest => .ok (pos ++ rest)
        | none => .error .missingArgument

/-- Instance attribute access `p.name`: resolves through the class
namespace; a property returns the element at its bound index, any other
resolution is not a positional element (`none` — in particular a field
whose property got stored under its mangled name makes access under the
raw name an `AttributeError`). -/
def getattrField (typename : String) (fields : List String)
    (p : List α) (name : String) : Option α :=
  match classAttr typename fields name with
  | some (.prop i) => p.get? i
  | _ => none

/-- Construction `T(*pos, **kw)`: `type.__call__` looks `__new__` up on
the class; if a field's property line overwrote it the property object
gets called and raises `TypeError`; otherwise the call binds against
the mangled parameter names of the generated `__new__`. -/
def constructNT (typename : String) (fields : List String)
    (pos : List α) (kw : List (String × α)) : Except PyError (List α) :=
  match classAttr typename fields "__new__" with
  | some .newMethod => bindArgs (fields.map (mangle typename)) pos kw
  | _ => .error .notCallable

/-- The generated `__replace__(self, field, value)`:
`T(**dict(list(zip(field_names, self)) + [(field, value)]))` — look the
method up (a field named `__replace__` shadows it with a property,
whose result is then called and raises `TypeError`), build a dict from
the zipped raw field names followed by the replacement pair (later
entries override), and call the constructor with it as keywords. -/
def replaceFieldOp (typename : String) (fields : List String)
    (p : List α) (field : String) (v : α) : Except PyError (List α) :=
  match classAttr typename fields "__replace__" with
  | some .replaceMethod =>
    constructNT typename fields []
      (dictFromList (fields.zip p ++ [(field, v)]))
  | _ => .error .notCallable

/-- `', '.join(...)`. -/
def joinComma : List String → String
  | [] => ""
  | [x] => x
  | x :: y :: rest => x ++ ", " ++ joinComma (y :: rest)

/-- The `reprtxt` of the factory:
`', '.join('%s=%%r' % name for name in field_names)`. -/
def reprtxt (fields : List String) : String :=
  joinComma (fields.map (fun f => f ++ "=%r"))

/-- The format string of the generated `__repr__`:
`'TypeName(f1=%r, f2=%r, ...)'`. -/
def reprFormat (typename : String) (fields : List String) : String :=
  typename ++ "(" ++ reprtxt fields ++ ")"

/-- Python `%`-formatting of a format string against a tuple of values,
at the character level. Only the conversions the generated format uses
are meaningful: `%r` consumes the next value (already rendered to its
display string, which is substituted verbatim, never rescanned), `%%`
is a literal percent; surplus or missing values are a `TypeError`
(`none`). -/
def pfL : List Char → List String → Option (List Char)
  | [], args => if args.isEmpty then some [] else none
  | c :: rest, args =>
    if c = '%' then
      match rest with
      | [] => none
      | d :: rest2 =>
        if d = '%' then (pfL rest2 args).map (fun t => '%' :: t)
        else if d = 'r' then
          match args with
          | [] => none
          | a :: args2 => (pfL rest2 args2).map (fun t => a.toList ++ t)
        else none
    else (pfL rest args).map (fun t => c :: t)

/-- `repr(p)`: special-method lookup finds the class's `__repr__` — a
field named `__repr__` shadows the generated method with its property,
and calling the property's value raises `TypeError`; otherwise the
method evaluates `'%(typename)s(%(reprtxt)s)' % self`, with each
element of `self` already rendered to its own display string. The
format string is built from the raw field names (string literals are
not mangled). -/
def pyRepr (typename : String) (fields : List String)
    (vals : List String) : Except PyError String :=
  match classAttr typename fields "__repr__" with
  | some .reprMethod =>
    match pfL (reprFormat typename fields).toList vals with
    | some l => .ok (String.mk l)
    | none => .error .formatError
  | _ => .error .notCallable

theorem strToList_append (s t : String) :
    (s ++ t).toList = s.toList ++ t.toList :=
  String.data_append s t

theorem memB_iff (x : String) (l : List String) :
    memB x l = true ↔ x ∈ l := by
  induction l with
  | nil => simp [memB]
  | cons y rest ih =>
    simp [memB, ih, List.mem_cons]

theorem distinctB_iff (l : List String) :
    distinctB l = true ↔ l.Nodup := by
  induction l with
  | nil => simp [distinctB]
  | cons x rest ih =>
    simp only [distinctB, Bool.and_eq_true, Bool.not_eq_true',
      List.nodup_cons]
    constructor
    · rintro ⟨h1, h2⟩
      refine ⟨fun hx => ?_, ih.mp h2⟩
      rw [(memB_iff x rest).mpr hx] at h1
      exact Bool.noConfusion h1
    · rintro ⟨h1, h2⟩
      refine ⟨?_, ih.mpr h2⟩
      cases hm : memB x rest
      · rfl
      · exact absurd ((memB_iff x rest).mp hm) h1

theorem namedTupleFields_ok {ty : String} {fs : List String}
    {T : RecordType} (h : namedTupleFields ty fs = .ok T) :
    T.name = ty ∧ T.fields = fs ∧ validNames ty fs = true ∧
      compileOk ty fs = true ∧ execOk ty fs = true := by
  unfold namedTupleFields at h
  by_cases hv : validNames ty fs
  · by_cases hc : compileOk ty fs
    · by_cases he : execOk ty fs
      · simp [hv, hc, he] at h
        exact ⟨by rw [← h], by rw [← h], hv, hc, he⟩
      · simp [hv, hc, he] at h
    · simp [hv, hc] at h
  · simp [hv] at h

theorem compileOk_mangled_nodup {ty : String} {fs : List String}
    (h : compileOk ty fs = true) : (fs.map (mangle ty)).Nodup := by
  unfold compileOk newParams at h
  simp only [Bool.and_eq_true] at h
  have h2 := (distinctB_iff _).mp h.2
  exact (List.nodup_cons.mp h2).2

theorem compileOk_nodup {ty : String} {fs : List String}
    (h : compileOk ty fs = true) : fs.Nodup :=
  (compileOk_mangled_nodup h).of_map

theorem dropWhile_head_ne (l : List Char) (c : Char) (cs : List Char)
    (h : l.dropWhile (fun d => d = '_') = c :: cs) : ¬ (c = '_') := by
  induction l with
  | nil => exact absurd h (by simp)
  | cons d l' ih =>
    rw [List.dropWhile_cons] at h
    by_cases hd : d = '_'
    · rw [if_pos (by simp [hd])] at h
      exact ih h
    · rw [if_neg (by simp [hd])] at h
      obtain ⟨h1, _⟩ := List.cons.inj h
      rw [← h1]
      exact hd

theorem mangle_shape (ty g : String) :
    mangle ty g = g ∨
    ∃ c cs, (mangle ty g).toList = '_' :: c :: cs ∧ ¬ (c = '_') := by
  unfold mangle
  by_cases hcond : g.toList.take 2 = ['_', '_'] ∧
      ¬ (g.toList.reverse.take 2 = ['_', '_']) ∧
      ¬ (ty.toList.dropWhile (fun c => c = '_') = [])
  · right
    rw [if_pos hcond]
    cases hs : ty.toList.dropWhile (fun c => c = '_') with
    | nil => exact absurd hs hcond.2.2
    | cons c cs =>
      refine ⟨c, cs ++ g.toList, ?_, dropWhile_head_ne _ c cs hs⟩
      rw [strToList_append]
      rfl
  · left
    rw [if_neg hcond]

theorem mangle_eq_dunder {ty g M : String} (h : mangle ty g = M)
    (hM : ∃ r, M.toList = '_' :: '_' :: r) : g = M := by
  rcases mangle_shape ty g with h1 | ⟨c, cs, hcl, hc⟩
  · rw [← h1]
    exact h
  · obtain ⟨r, hr⟩ := hM
    rw [h, hr] at hcl
    obtain ⟨_, h2⟩ := List.cons.inj hcl
    exact absurd (List.cons.inj h2).1.symm hc

theorem lastPropIdx_none (ty : String) (fs : List String)
    (name : String) (h : ∀ g ∈ fs, ¬ (mangle ty g = name)) :
    lastPropIdx ty fs name = none := by
  induction fs with
  | nil => rfl
  | cons f fs' ih =>
    have h2 : lastPropIdx ty fs' name = none :=
      ih (fun g hg => h g (List.mem_cons_of_mem f hg))
    simp [lastPropIdx, h2, h f (List.mem_cons_self f fs')]

theorem lastPropIdx_at_field (ty : String) (fields : List String)
    (hnd : (fields.map (mangle ty)).Nodup) (i : Nat)
    (hi : i < fields.length)
    (hm : mangle ty (fields.get ⟨i, hi⟩) = fields.get ⟨i, hi⟩) :
    lastPropIdx ty fields (fields.get ⟨i, hi⟩) = some i := by
  induction fields generalizing i with
  | nil => exact absurd hi (by simp)
  | cons f fs ih =>
    rw [List.map_cons, List.nodup_cons] at hnd
    cases i with
    | zero =>
      have hm0 : mangle ty f = f := hm
      have hnone : lastPropIdx ty fs f = none := by
        refine lastPropIdx_none ty fs f ?_
        intro g hg hEq
        refine hnd.1 ?_
        rw [hm0, ← hEq]
        exact List.mem_map_of_mem (mangle ty) hg
      show lastPropIdx ty (f :: fs) f = some 0
      simp [lastPropIdx, hnone, hm0]
    | succ j =>
      have hj : j < fs.length := Nat.lt_of_succ_lt_succ hi
      have hget : (f :: fs).get ⟨j + 1, hi⟩ = fs.get ⟨j, hj⟩ := rfl
      rw [hget]
      have hrec := ih hnd.2 j hj (by rw [← hget]; exact hm)
      show (match lastPropIdx ty fs (fs.get ⟨j, hj⟩) with
        | some j => some (j + 1)
        | none =>
          if mangle ty f = fs.get ⟨j, hj⟩ then some 0 else none) =
        some (j + 1)
      rw [hrec]

theorem classAttr_at_field (ty : String) (fields : List String)
    (hnd : (fields.map (mangle ty)).Nodup) (i : Nat)
    (hi : i < fields.length)
    (hm : mangle ty (fields.get ⟨i, hi⟩) = fields.get ⟨i, hi⟩) :
    classAttr ty fields (fields.get ⟨i, hi⟩) = some (.prop i) := by
  unfold classAttr
  rw [lastPropIdx_at_field ty fields hnd i hi hm]

theorem classAttr_fixed (ty : String) (fields : List String)
    (M : String) (hMd : ∃ r, M.toList = '_' :: '_' :: r)
    (hnm : M ∉ fields) :
    classAttr ty fields M =
      (if M = "__slots__" then some .slotsAttr
       else if M = "__fields__" then some .fieldsList
       else if M = "__new__" then some .newMethod
       else if M = "__repr__" then some .reprMethod
       else if M = "__replace__" then some .replaceMethod
       else none) := by
  unfold classAttr
  rw [lastPropIdx_none ty fields M
    (fun g hg hEq => hnm (mangle_eq_dunder hEq hMd ▸ hg))]

theorem safeField_head {f : String} {c : Char} {cs : List Char}
    (hf : f.toList = c :: cs) (h : safeField f = true) : ¬ (c = '_') := by
  unfold safeField at h
  rw [hf] at h
  simpa using h

theorem mangle_safe (ty f : String) (h : safeField f = true) :
    mangle ty f = f := by
  unfold mangle
  refine if_neg ?_
  rintro ⟨h1, _⟩
  cases hf : f.toList with
  | nil =>
    unfold safeField at h
    rw [hf] at h
    exact absurd h (by simp)
  | cons c cs =>
    rw [hf, List.take_succ_cons] at h1
    exact safeField_head hf h (List.cons.inj h1).1

theorem safe_not_mem_dunder {fs : List String}
    (hsafe : ∀ f ∈ fs, safeField f = true) {M : String}
    (hM : M.toList.head? = some '_') : M ∉ fs := by
  intro hmem
  have hs := hsafe M hmem
  unfold safeField at hs
  cases hf : M.toList with
  | nil => rw [hf] at hM; exact absurd hM (by simp)
  | cons c cs =>
    rw [hf] at hM hs
    have hc : c = '_' := by simpa using hM
    rw [hc] at hs
    simp at hs

theorem map_mangle_id (ty : String) (fs : List String)
    (h : ∀ f ∈ fs, mangle ty f = f) : fs.map (mangle ty) = fs := by
  rw [List.map_congr_left h]
  exact List.map_id' fs

theorem alookup_zip_nodup (keys : List String) (vs : List α)
    (hnd : keys.Nodup) (i : Nat) (hi : i < keys.length) :
    alookup (keys.zip vs) (keys.get ⟨i, hi⟩) = vs.get? i := by
  induction keys generalizing vs i with
  | nil => exact absurd hi (by simp)
  | cons k ks ih =>
    rcases List.nodup_cons.mp hnd with ⟨hk, hks⟩
    cases vs with
    | nil =>
      simp [List.zip_nil_right, alookup]
    | cons v vs' =>
      cases i with
      | zero => simp [alookup]
      | succ j =>
        have hj : j < ks.length := Nat.lt_of_succ_lt_succ hi
        have hget : (k :: ks).get ⟨j + 1, hi⟩ = ks.get ⟨j, hj⟩ := rfl
        rw [hget]
        have hne : ¬ (ks.get ⟨j, hj⟩ = k) := by
          intro hEq
          exact hk (hEq ▸ List.get_mem ks j hj)
        show (if ks.get ⟨j, hj⟩ = k then some v
          else alookup (ks.zip vs') (ks.get ⟨j, hj⟩)) =
            (v :: vs').get? (j + 1)
        rw [if_neg hne, ih vs' hks j hj]
        rfl

theorem fillRest_of_alookup (params : List String) (q : List α)
    (kw : List (String × α)) (hlen : params.length = q.length)
    (h : ∀ i (hi : i < params.length),
      alookup kw (params.get ⟨i, hi⟩) = q.get? i) :
    fillRest kw params = some q := by
  induction params generalizing q with
  | nil =>
    cases q with
    | nil => rfl
    | cons _ _ => exact absurd hlen (by simp)
  | cons f fs ih =>
    cases q with
    | nil => exact absurd hlen (by simp)
    | cons v q' =>
      have h0 : alookup kw f = some v := by
        have := h 0 (by simp)
        simpa using this
      have hrest : fillRest kw fs = some q' := by
        refine ih q' (by simpa using hlen) ?_
        intro i hi
        have := h (i + 1) (by simpa using Nat.succ_lt_succ hi)
        simpa using this
      simp [fillRest, h0, hrest]

theorem alookup_map_ne {α : Type} (d : List (String × α)) (k key : String)
    (v : α) (hne : ¬ (key = k)) :
    alookup (d.map (fun q => if q.1 = k then (k, v) else q)) key =
      alookup d key := by
  induction d with
  | nil => rfl
  | cons q d' ih =>
    obtain ⟨k1, v1⟩ := q
    by_cases h1 : k1 = k
    · subst h1
      simp only [List.map_cons]
      simp only [if_true]
      show (if key = k1 then some v
        else alookup (d'.map (fun q => if q.1 = k1 then (k1, v) else q))
          key) = alookup ((k1, v1) :: d') key
      rw [if_neg hne, ih]
      show alookup d' key = if key = k1 then some v1 else alookup d' key
      rw [if_neg hne]
    · simp only [List.map_cons]
      rw [if_neg (by simpa using h1)]
      by_cases h2 : key = k1
      · simp [alookup, h2]
      · simp [alookup, h2, ih]

theorem dictInsert_cons_ne {α : Type} (d : List (String × α))
    (k0 k : String) (v0 v : α) (h : ¬ (k0 = k)) :
    dictInsert ((k0, v0) :: d) k v = (k0, v0) :: dictInsert d k v := by
  by_cases hd : d.any (fun q => q.1 = k) <;>
    simp [dictInsert, h, hd]

theorem alookup_dictInsert {α : Type} (d : List (String × α))
    (k key : String) (v : α) :
    alookup (dictInsert d k v) key =
      if key = k then some v else alookup d key := by
  induction d with
  | nil => simp [dictInsert, alookup]
  | cons q d' ih =>
    obtain ⟨k0, v0⟩ := q
    by_cases h0 : k0 = k
    · subst h0
      have hins : dictInsert ((k0, v0) :: d') k0 v =
          (k0, v) :: d'.map (fun q => if q.1 = k0 then (k0, v) else q) := by
        simp [dictInsert]
      rw [hins]
      by_cases hk : key = k0
      · simp [alookup, hk]
      · simp only [alookup, if_neg hk]
        exact alookup_map_ne d' k0 key v hk
    · rw [dictInsert_cons_ne d' k0 k v0 v h0]
      by_cases hk : key = k0
      · have hkk : ¬ (key = k) := fun hEq => h0 (by rw [← hk, hEq])
        subst hk
        show (if key = key then some v0 else alookup (dictInsert d' k v)
          key) = if key = k then some v else alookup ((key, v0) :: d') key
        rw [if_pos rfl, if_neg hkk]
        show some v0 = if key = key then some v0 else alookup d' key
        rw [if_pos rfl]
      · show (if key = k0 then some v0 else alookup (dictInsert d' k v)
          key) = if key = k then some v else alookup ((k0, v0) :: d') key
        rw [if_neg hk, ih]
        by_cases hkk : key = k
        · rw [if_pos hkk, if_pos hkk]
        · rw [if_neg hkk, if_neg hkk]
          show alookup d' key =
            if key = k0 then some v0 else alookup d' key
          rw [if_neg hk]

theorem dictInsert_of_not_key {α : Type} (d : List (String × α))
    (k : String) (v : α) (h : ∀ q ∈ d, ¬ (q.1 = k)) :
    dictInsert d k v = d ++ [(k, v)] := by
  have hany : d.any (fun q => q.1 = k) = false := by
    rw [List.any_eq_false]
    intro q hq
    simpa using h q hq
  simp [dictInsert, hany]

theorem dictFromList_append_single {α : Type} (l : List (String × α))
    (kv : String × α) :
    dictFromList (l ++ [kv]) = dictInsert (dictFromList l) kv.1 kv.2 := by
  simp [dictFromList, List.foldl_append]

theorem dictFromList_acc {α : Type} (l acc : List (String × α))
    (h : ((acc ++ l).map Prod.fst).Nodup) :
    l.foldl (fun d kv => dictInsert d kv.1 kv.2) acc = acc ++ l := by
  induction l generalizing acc with
  | nil => simp
  | cons kv l' ih =>
    have hkey : ∀ q ∈ acc, ¬ (q.1 = kv.1) := by
      intro q hq hEq
      have hmem : kv.1 ∈ (acc.map Prod.fst) :=
        hEq ▸ List.mem_map_of_mem Prod.fst hq
      rw [List.map_append, List.nodup_append] at h
      exact h.2.2 hmem (by simp)
    have hstep : dictInsert acc kv.1 kv.2 = acc ++ [kv] := by
      rw [dictInsert_of_not_key acc kv.1 kv.2 hkey]
    have hre : (acc ++ [kv]) ++ l' = acc ++ (kv :: l') := by
      rw [List.append_assoc]; rfl
    calc (kv :: l').foldl (fun d kv => dictInsert d kv.1 kv.2) acc
        = l'.foldl (fun d kv => dictInsert d kv.1 kv.2)
            (dictInsert acc kv.1 kv.2) := rfl
      _ = l'.foldl (fun d kv => dictInsert d kv.1 kv.2) (acc ++ [kv]) := by
            rw [hstep]
      _ = (acc ++ [kv]) ++ l' := by
            refine ih (acc ++ [kv]) ?_
            rw [hre]
            exact h
      _ = acc ++ (kv :: l') := hre

theorem dictFromList_nodup_keys {α : Type} (l : List (String × α))
    (h : (l.map Prod.fst).Nodup) : dictFromList l = l := by
  have := dictFromList_acc l [] (by simpa using h)
  simpa [dictFromList] using this

theorem alookup_zip_not_mem {α : Type} (keys : List String)
    (vs : List α) (x : String) (hx : x ∉ keys) :
    alookup (keys.zip vs) x = none := by
  induction keys generalizing vs with
  | nil => rfl
  | cons k ks ih =>
    cases vs with
    | nil => rfl
    | cons v vs' =>
      have hne : ¬ (x = k) := fun hEq => hx (hEq ▸ List.mem_cons_self k ks)
      show (if x = k then some v else alookup (ks.zip vs') x) = none
      rw [if_neg hne]
      exact ih vs' (fun hmem => hx (List.mem_cons_of_mem k hmem))

theorem bindArgs_mix {α : Type} (fields : List String) (vs : List α)
    (k : Nat) (hnd : fields.Nodup) (hlen : vs.length = fields.length)
    (hk : k ≤ vs.length) :
    bindArgs fields (vs.take k) ((fields.drop k).zip (vs.drop k)) =
      .ok vs := by
  have hplen : (vs.take k).length = k := by
    rw [List.length_take]
    exact Nat.min_eq_left hk
  have hnotlt : ¬ (fields.length < (vs.take k).length) := by
    rw [hplen, ← hlen]
    exact Nat.not_lt.mpr hk
  have hkeys : ((fields.drop k).zip (vs.drop k)).map Prod.fst =
      fields.drop k := by
    refine List.map_fst_zip _ _ ?_
    simp [hlen]
  have hfind1 : (((fields.drop k).zip (vs.drop k)).map Prod.fst).find?
      (fun x => !(memB x fields)) = none := by
    rw [hkeys]
    refine List.find?_eq_none.mpr ?_
    intro x hx
    have : x ∈ fields := List.mem_of_mem_drop hx
    simp [(memB_iff x fields).mpr this]
  have hsplit : (fields.take k ++ fields.drop k).Nodup := by
    rw [List.take_append_drop]
    exact hnd
  have hdisj := (List.nodup_append.mp hsplit).2.2
  have hfind2 : (fields.take (vs.take k).length).find?
      (fun f => (alookup ((fields.drop k).zip (vs.drop k)) f).isSome) =
        none := by
    rw [hplen]
    refine List.find?_eq_none.mpr ?_
    intro f hf
    have hnot : f ∉ fields.drop k := hdisj hf
    simp [alookup_zip_not_mem _ _ _ hnot]
  have hfill : fillRest ((fields.drop k).zip (vs.drop k))
      (fields.drop (vs.take k).length) = some (vs.drop k) := by
    rw [hplen]
    refine fillRest_of_alookup _ _ _ (by simp [hlen]) ?_
    intro i hi
    exact alookup_zip_nodup (fields.drop k) (vs.drop k)
      (hnd.sublist (List.drop_sublist k fields)) i hi
  unfold bindArgs
  rw [if_neg hnotlt, hfind1, hfind2, hfill]
  show Except.ok (vs.take k ++ vs.drop k) = Except.ok vs
  rw [List.take_append_drop]

/-- C1 counterexample: the claim fails at a validation-passing input.
`NamedTuple('T', '__x')` succeeds, but the class body privately mangles
the property line's target to `_T__x`, so the attribute named after the
field (`p.__x`) raises `AttributeError` instead of returning `p[0]`;
the element is reachable only under the mangled name. -/
theorem C1_counterexample :
    namedTupleFields "T" ["__x"] = .ok ⟨"T", ["__x"]⟩ ∧
    getattrField "T" ["__x"] ([11] : List Int) "__x" = none ∧
    getattrField "T" ["__x"] ([11] : List Int) "_T__x" = some 11 := by
  refine ⟨by decide, by decide, by decide⟩

/-- C1 amended: for every record type the factory produces whose field
names all begin with a letter — so no name is privately mangled and
none can collide with the class's special `__...__` machinery — the
attribute named after field `i` is the generated
`property(itemgetter(i))` and returns the instance's element at
positional index `i`, bound at type-creation time rather than by
runtime string lookup. -/
theorem C1_field_accessor {ty : String} {fs : List String}
    {T : RecordType} {α : Type} (h : namedTupleFields ty fs = .ok T)
    (hsafe : ∀ f ∈ T.fields, safeField f = true)
    (p : List α) (i : Nat) (hi : i < T.fields.length) :
    getattrField T.name T.fields p (T.fields.get ⟨i, hi⟩) =
      p.get? i := by
  obtain ⟨hname, hfs, _, hc, _⟩ := namedTupleFields_ok h
  have hnd : (T.fields.map (mangle T.name)).Nodup := by
    rw [hname, hfs]
    exact compileOk_mangled_nodup hc
  have hm : mangle T.name (T.fields.get ⟨i, hi⟩) =
      T.fields.get ⟨i, hi⟩ :=
    mangle_safe _ _ (hsafe _ (List.get_mem T.fields i hi))
  have hca := classAttr_at_field T.name T.fields hnd i hi hm
  unfold getattrField
  rw [hca]

/-- Witness for the amended C1 at `Point = NamedTuple('Point', 'x y')`,
`p = Point(11, 22)`: `p.x` is `p[0] = 11`. -/
theorem C1_field_accessor_witness :
    namedTupleFields "Point" ["x", "y"] = .ok ⟨"Point", ["x", "y"]⟩ ∧
    (∀ f ∈ (["x", "y"] : List String), safeField f = true) ∧
    getattrField "Point" ["x", "y"] ([11, 22] : List Int) "x" =
      some 11 := by
  refine ⟨by decide, by decide, ?_⟩
  exact C1_field_accessor (α := Int)
    (by decide : namedTupleFields "Point" ["x", "y"] =
      .ok ⟨"Point", ["x", "y"]⟩) (by decide) [11, 22] 0 (by decide)

/-- C2 counterexample: for `NamedTuple('T', '__x')` positional
construction works, but keyword construction with the field's own name
fails: the generated `__new__`'s parameter is mangled to `_T__x`, so
`T(__x=1)` raises the unexpected-keyword `TypeError` and is not
equivalent to `T(1)`. -/
theorem C2_counterexample :
    namedTupleFields "T" ["__x"] = .ok ⟨"T", ["__x"]⟩ ∧
    constructNT "T" ["__x"] ([1] : List Int) [] = .ok [1] ∧
    constructNT "T" ["__x"] ([] : List Int) [("__x", 1)] =
      .error (.unexpectedKeyword "__x") := by
  refine ⟨by decide, by decide, by decide⟩

/-- C2 amended: for every record type the factory produces whose field
names all begin with a letter — so the generated `__new__` survives and
its parameters are the unmangled field names — positional construction,
keyword construction by field name, and any positional-then-keyword mix
all bind to the same instance, so `T(1,2) == T(x=1, y=2)`. -/
theorem C2_constructor_equiv {ty : String} {fs : List String}
    {T : RecordType} (h : namedTupleFields ty fs = .ok T)
    (hsafe : ∀ f ∈ T.fields, safeField f = true) {α : Type}
    (vs : List α) (hlen : vs.length = T.fields.length) :
    constructNT T.name T.fields vs [] = .ok vs ∧
    constructNT T.name T.fields [] (T.fields.zip vs) = .ok vs ∧
    (∀ k, k ≤ vs.length →
      constructNT T.name T.fields (vs.take k)
        ((T.fields.drop k).zip (vs.drop k)) = .ok vs) ∧
    constructNT T.name T.fields vs [] =
      constructNT T.name T.fields [] (T.fields.zip vs) := by
  obtain ⟨hname, hfs, _, hc, _⟩ := namedTupleFields_ok h
  have hmnd : (T.fields.map (mangle T.name)).Nodup := by
    rw [hname, hfs]
    exact compileOk_mangled_nodup hc
  have hmid : T.fields.map (mangle T.name) = T.fields :=
    map_mangle_id _ _ (fun f hf => mangle_safe _ _ (hsafe f hf))
  have hnd : T.fields.Nodup := by
    rw [← hmid]
    exact hmnd
  have hnew : classAttr T.name T.fields "__new__" =
      some .newMethod := by
    rw [classAttr_fixed T.name T.fields "__new__" ⟨_, rfl⟩
      (safe_not_mem_dunder hsafe rfl)]
    rfl
  have hbind : ∀ (pos : List α) kw,
      constructNT T.name T.fields pos kw =
        bindArgs T.fields pos kw := by
    intro pos kw
    unfold constructNT
    rw [hnew]
    show bindArgs (T.fields.map (mangle T.name)) pos kw =
      bindArgs T.fields pos kw
    rw [hmid]
  have hpos : constructNT T.name T.fields vs [] = .ok vs := by
    rw [hbind]
    have h1 := bindArgs_mix T.fields vs vs.length hnd hlen le_rfl
    rw [List.take_length] at h1
    rw [hlen, List.drop_length] at h1
    simpa using h1
  have hkw : constructNT T.name T.fields [] (T.fields.zip vs) =
      .ok vs := by
    rw [hbind]
    have h0 := bindArgs_mix T.fields vs 0 hnd hlen (Nat.zero_le _)
    simpa using h0
  refine ⟨hpos, hkw, ?_, hpos.trans hkw.symm⟩
  intro k hk
  rw [hbind]
  exact bindArgs_mix T.fields vs k hnd hlen hk

/-- Witness for the amended C2 at fields `(x, y)`: `T(1,2)` and
`T(x=1, y=2)` both bind to the instance `(1, 2)`. -/
theorem C2_constructor_equiv_witness :
    namedTupleFields "Point" ["x", "y"] = .ok ⟨"Point", ["x", "y"]⟩ ∧
    constructNT "Point" ["x", "y"] ([1, 2] : List Int) [] =
      .ok [1, 2] ∧
    constructNT "Point" ["x", "y"] ([] : List Int)
      [("x", 1), ("y", 2)] = .ok [1, 2] := by
  have hT : namedTupleFields "Point" ["x", "y"] =
      .ok ⟨"Point", ["x", "y"]⟩ := by decide
  have h := C2_constructor_equiv (α := Int) hT (by decide) [1, 2]
    (by decide)
  exact ⟨hT, h.1, h.2.1⟩

/-- C3: the factory raises its `ValueError` (the spec's
`InvalidNameError`) exactly when the concatenation of the type name with
all field names, underscores removed, fails Python's `isalnum`; when
that test passes, the validation step raises nothing. -/
theorem C3_validation_iff (ty : String) (fs : List String) :
    namedTupleFields ty fs = .error .valueError ↔
      validNames ty fs = false := by
  unfold namedTupleFields
  by_cases hv : validNames ty fs
  · by_cases hc : compileOk ty fs
    · by_cases he : execOk ty fs <;> simp [hv, hc, he]
    · simp [hv, hc]
  · simp only [Bool.not_eq_true] at hv
    simp [hv]

/-- C10: whenever the joined names pass the `isalnum` validation, the
factory never raises the invalid-name `ValueError`; a field name that is
purely numeric, starts with a digit, or is a reserved word slips through
validation and fails only later, when the generated class source is
compiled, as a `SyntaxError`. -/
theorem C10_late_failure (ty : String) (fs : List String)
    (h : validNames ty fs = true) :
    namedTupleFields ty fs ≠ .error .valueError ∧
    (compileOk ty fs = false →
      namedTupleFields ty fs = .error .compileError) := by
  unfold namedTupleFields
  rw [h]
  constructor
  · by_cases hc : compileOk ty fs
    · by_cases he : execOk ty fs <;> simp [hc, he]
    · simp [hc]
  · intro hc
    simp [hc]

/-- Witness for C10 at `NamedTuple('T', '1')`: the purely numeric field
name `1` passes validation (`'T1'.isalnum()`), and the factory fails
with a `SyntaxError` from the generated source, not the `ValueError`. -/
theorem C10_late_failure_witness :
    validNames "T" ["1"] = true ∧ compileOk "T" ["1"] = false ∧
    namedTupleFields "T" ["1"] = .error .compileError := by
  refine ⟨by decide, by decide, ?_⟩
  exact (C10_late_failure "T" ["1"] (by decide)).2 (by decide)

theorem dictInsert_keys_of_any {α : Type} (d : List (String × α))
    (k : String) (v : α) (h : d.any (fun q => q.1 = k) = true) :
    (dictInsert d k v).map Prod.fst = d.map Prod.fst := by
  unfold dictInsert
  rw [if_pos h, List.map_map]
  refine List.map_congr_left ?_
  intro q _
  by_cases hq : q.1 = k
  · simp [hq]
  · simp [hq]

theorem bindArgs_kwargs {α : Type} (fields : List String)
    (kw : List (String × α)) (q : List α)
    (hkeys : kw.map Prod.fst = fields)
    (hfill : fillRest kw fields = some q) :
    bindArgs fields [] kw = .ok q := by
  unfold bindArgs
  rw [if_neg (by simp)]
  have hfind1 : (kw.map Prod.fst).find? (fun k => !(memB k fields)) =
      none := by
    rw [hkeys]
    refine List.find?_eq_none.mpr ?_
    intro x hx
    simp [(memB_iff x fields).mpr hx]
  rw [hfind1]
  have hfind2 : (fields.take (List.length ([] : List α))).find?
      (fun f => (alookup kw f).isSome) = none := rfl
  rw [hfind2]
  have hdrop : fields.drop (List.length ([] : List α)) = fields := rfl
  rw [hdrop, hfill]
  rfl

/-- C4 counterexample: for `NamedTuple('T', '__x')`, replacing the
declared field `__x` fails instead of producing a new instance: the
generated `__replace__` passes the raw name `__x` as a keyword (string
literals are not mangled), but the generated `__new__`'s parameter was
mangled to `_T__x`, so the call raises the unexpected-keyword
`TypeError`. -/
theorem C4_counterexample :
    namedTupleFields "T" ["__x"] = .ok ⟨"T", ["__x"]⟩ ∧
    replaceFieldOp "T" ["__x"] ([11] : List Int) "__x" 100 =
      .error (.unexpectedKeyword "__x") := by
  refine ⟨by decide, by decide⟩

/-- C4 amended: for every record type the factory produces whose field
names all begin with a letter — so the generated `__replace__` and
`__new__` survive the property lines and no parameter is mangled —
`__replace__` on a declared field returns a new instance holding the
new value at that field and the old values everywhere else (so
`replace_field(p, 'x', 100) == T(100, p.y)`); the original instance is
a plain immutable tuple and is not mutated (every operation here is
pure). -/
theorem C4_replace_field {ty : String} {fs : List String}
    {T : RecordType} (h : namedTupleFields ty fs = .ok T)
    (hsafe : ∀ f ∈ T.fields, safeField f = true) {α : Type}
    (p : List α) (f : String) (v : α) (hf : f ∈ T.fields)
    (hlen : p.length = T.fields.length) :
    ∃ i : Nat, lastPropIdx T.name T.fields f = some i ∧
      replaceFieldOp T.name T.fields p f v = .ok (p.set i v) ∧
      getattrField T.name T.fields (p.set i v) f = some v ∧
      ∀ g ∈ T.fields, g ≠ f →
        getattrField T.name T.fields (p.set i v) g =
          getattrField T.name T.fields p g := by
  obtain ⟨hname, hfs, _, hc, _⟩ := namedTupleFields_ok h
  have hmnd : (T.fields.map (mangle T.name)).Nodup := by
    rw [hname, hfs]
    exact compileOk_mangled_nodup hc
  have hmid : T.fields.map (mangle T.name) = T.fields :=
    map_mangle_id _ _ (fun g hg => mangle_safe _ _ (hsafe g hg))
  have hnd : T.fields.Nodup := by
    rw [← hmid]
    exact hmnd
  have hra : classAttr T.name T.fields "__replace__" =
      some .replaceMethod := by
    rw [classAttr_fixed T.name T.fields "__replace__" ⟨_, rfl⟩
      (safe_not_mem_dunder hsafe rfl)]
    rfl
  have hna : classAttr T.name T.fields "__new__" =
      some .newMethod := by
    rw [classAttr_fixed T.name T.fields "__new__" ⟨_, rfl⟩
      (safe_not_mem_dunder hsafe rfl)]
    rfl
  obtain ⟨j, hgj⟩ := List.get_of_mem hf
  have hj : lastPropIdx T.name T.fields f = some j.1 := by
    rw [← hgj]
    exact lastPropIdx_at_field T.name T.fields hmnd j.1 j.2
      (by rw [hgj]; exact mangle_safe _ _ (hsafe f hf))
  have hcaf : classAttr T.name T.fields f = some (.prop j.1) := by
    unfold classAttr
    rw [hj]
  have hltp : j.1 < p.length := by
    rw [hlen]
    exact j.2
  have hzipkeys : (T.fields.zip p).map Prod.fst = T.fields :=
    List.map_fst_zip _ _ (by rw [hlen])
  have hdfl : dictFromList (T.fields.zip p) = T.fields.zip p :=
    dictFromList_nodup_keys _ (by rw [hzipkeys]; exact hnd)
  have hkw : dictFromList (T.fields.zip p ++ [(f, v)]) =
      dictInsert (T.fields.zip p) f v := by
    rw [dictFromList_append_single, hdfl]
  have hany : (T.fields.zip p).any (fun q => q.1 = f) = true := by
    have hmem : f ∈ (T.fields.zip p).map Prod.fst := by
      rw [hzipkeys]; exact hf
    obtain ⟨q, hq, hq1⟩ := List.mem_map.mp hmem
    rw [List.any_eq_true]
    exact ⟨q, hq, by simp [hq1]⟩
  have hkeys2 : (dictInsert (T.fields.zip p) f v).map Prod.fst =
      T.fields := by
    rw [dictInsert_keys_of_any _ _ _ hany, hzipkeys]
  have hfill : fillRest (dictInsert (T.fields.zip p) f v) T.fields =
      some (p.set j.1 v) := by
    refine fillRest_of_alookup _ _ _ (by simp [List.length_set, hlen]) ?_
    intro i hi
    rw [alookup_dictInsert]
    by_cases heq : T.fields.get ⟨i, hi⟩ = f
    · have hij : i = j.1 := by
        have : (⟨i, hi⟩ : Fin T.fields.length) = j :=
          hnd.get_inj_iff.mp (heq.trans hgj.symm)
        exact congrArg Fin.val this
      rw [if_pos heq, hij]
      exact (List.get?_set_eq_of_lt v hltp).symm
    · have hji : j.1 ≠ i := by
        intro hEq
        refine heq ?_
        rw [← hgj]
        congr 1
        exact Fin.ext hEq.symm
      rw [if_neg heq, alookup_zip_nodup T.fields p hnd i hi]
      exact (List.get?_set_ne v p hji).symm
  have hrepl : replaceFieldOp T.name T.fields p f v =
      .ok (p.set j.1 v) := by
    unfold replaceFieldOp
    rw [hra]
    show constructNT T.name T.fields []
      (dictFromList (T.fields.zip p ++ [(f, v)])) = .ok (p.set j.1 v)
    unfold constructNT
    rw [hna]
    show bindArgs (T.fields.map (mangle T.name)) []
      (dictFromList (T.fields.zip p ++ [(f, v)])) = .ok (p.set j.1 v)
    rw [hmid, hkw]
    exact bindArgs_kwargs T.fields _ _ hkeys2 hfill
  refine ⟨j.1, hj, hrepl, ?_, ?_⟩
  · unfold getattrField
    rw [hcaf]
    exact List.get?_set_eq_of_lt v hltp
  · intro g hg hgf
    obtain ⟨i, hgi⟩ := List.get_of_mem hg
    have hcag : classAttr T.name T.fields g = some (.prop i.1) := by
      rw [← hgi]
      exact classAttr_at_field T.name T.fields hmnd i.1 i.2
        (by rw [hgi]; exact mangle_safe _ _ (hsafe g hg))
    have hji : j.1 ≠ i.1 := by
      intro hEq
      refine hgf ?_
      rw [← hgi, ← hgj]
      congr 1
      exact Fin.ext hEq.symm
    unfold getattrField
    rw [hcag]
    exact List.get?_set_ne v p hji

/-- Witness for the amended C4 at `p = Point(11, 22)`:
`p.__replace__('x', 100)` is `Point(100, 22)`. -/
theorem C4_replace_field_witness :
    namedTupleFields "Point" ["x", "y"] = .ok ⟨"Point", ["x", "y"]⟩ ∧
    replaceFieldOp "Point" ["x", "y"] ([11, 22] : List Int) "x" 100 =
      .ok [100, 22] := by
  refine ⟨by decide, ?_⟩
  obtain ⟨i, hidx, hrepl, _, _⟩ := C4_replace_field (α := Int)
    (by decide : namedTupleFields "Point" ["x", "y"] =
      .ok ⟨"Point", ["x", "y"]⟩) (by decide) [11, 22] "x" 100
    (by decide) (by decide)
  have h0 : some i = some 0 := by
    rw [← hidx]
    decide
  injection h0 with h0'
  subst h0'
  exact hrepl

/-- C9 counterexample: the claim fails on a generated type with a field
named `__fields__` (which passes validation and compiles): its property
line overwrites the class-level `__fields__` tuple, so the type carries
the accessor instead of the ordered name list. -/
theorem C9_counterexample :
    namedTupleFields "T" ["__fields__"] =
      .ok ⟨"T", ["__fields__"]⟩ ∧
    fieldsAttr "T" ["__fields__"] = none := by
  refine ⟨by decide, by decide⟩

/-- C9 amended: every generated record type with no field named
`__fields__` carries the class-level `__fields__` list, equal in order
and length to the declared field sequence, and building a dict from
`zip(__fields__, p)` recovers every field's value. -/
theorem C9_fields_attr {ty : String} {fs : List String}
    {T : RecordType} (h : namedTupleFields ty fs = .ok T)
    (hnf : "__fields__" ∉ T.fields) :
    fieldsAttr T.name T.fields = some fs ∧
    ∀ {α : Type} (p : List α), p.length = T.fields.length →
      ∀ i (hi : i < T.fields.length),
        alookup (dictFromList (T.fields.zip p))
          (T.fields.get ⟨i, hi⟩) = p.get? i := by
  obtain ⟨hname, hfs, hv, hc, _⟩ := namedTupleFields_ok h
  have hnd : T.fields.Nodup := by
    rw [hfs]
    exact compileOk_nodup hc
  have hca : classAttr T.name T.fields "__fields__" =
      some .fieldsList := by
    rw [classAttr_fixed T.name T.fields "__fields__" ⟨_, rfl⟩ hnf]
    rfl
  constructor
  · unfold fieldsAttr
    rw [hca]
    show some T.fields = some fs
    rw [hfs]
  · intro α p hlen i hi
    have hzipkeys : (T.fields.zip p).map Prod.fst = T.fields :=
      List.map_fst_zip _ _ (by rw [hlen])
    have hdfl : dictFromList (T.fields.zip p) = T.fields.zip p :=
      dictFromList_nodup_keys _ (by rw [hzipkeys]; exact hnd)
    rw [hdfl]
    exact alookup_zip_nodup T.fields p hnd i hi

/-- Witness for the amended C9 at `p = Point(11, 22)`:
`dict(zip(p.__fields__, p))['x']` is `11`. -/
theorem C9_fields_attr_witness :
    namedTupleFields "Point" ["x", "y"] = .ok ⟨"Point", ["x", "y"]⟩ ∧
    fieldsAttr "Point" ["x", "y"] = some ["x", "y"] ∧
    alookup (dictFromList ((["x", "y"] : List String).zip
      ([11, 22] : List Int))) "x" = some 11 := by
  have hT : namedTupleFields "Point" ["x", "y"] =
      .ok ⟨"Point", ["x", "y"]⟩ := by decide
  have h9 := C9_fields_attr hT (by decide)
  exact ⟨hT, h9.1, h9.2 (α := Int) [11, 22] (by decide) 0 (by decide)⟩

theorem pfL_cons_ne (c : Char) (hc : ¬ (c = '%')) (l : List Char)
    (args : List String) :
    pfL (c :: l) args = (pfL l args).map (fun t => c :: t) := by
  rw [pfL.eq_def]
  simp only []
  rw [if_neg hc]

theorem pfL_conv (l : List Char) (a : String) (args : List String) :
    pfL ('%' :: 'r' :: l) (a :: args) =
      (pfL l args).map (fun t => a.toList ++ t) := rfl

theorem pfL_literal (s : List Char) (h : ∀ c ∈ s, ¬ (c = '%'))
    (rest : List Char) (args : List String) :
    pfL (s ++ rest) args = (pfL rest args).map (fun t => s ++ t) := by
  induction s with
  | nil => cases hres : pfL rest args <;> simp [hres]
  | cons c s' ih =>
    have hc : ¬ (c = '%') := h c (List.mem_cons_self c s')
    rw [List.cons_append, pfL_cons_ne c hc,
      ih (fun d hd => h d (List.mem_cons_of_mem c hd))]
    cases hres : pfL rest args <;> simp [hres]

theorem pfL_reprtxt (fields : List String) :
    ∀ (vals : List String) (rest : List Char) (args : List String),
    fields.length = vals.length →
    (∀ f ∈ fields, ∀ c ∈ f.toList, ¬ (c = '%')) →
    pfL ((reprtxt fields).toList ++ rest) (vals ++ args) =
      (pfL rest args).map (fun t =>
        (joinComma (List.zipWith (fun f v => f ++ "=" ++ v) fields
          vals)).toList ++ t) := by
  induction fields with
  | nil =>
    intro vals rest args hlen hch
    have hv : vals = [] := List.length_eq_zero.mp hlen.symm
    subst hv
    cases hres : pfL rest args <;> simp [hres, reprtxt, joinComma]
  | cons f fs ih =>
    intro vals rest args hlen hch
    cases vals with
    | nil => exact absurd hlen (by simp)
    | cons v vs =>
      have hcf : ∀ c ∈ f.toList, ¬ (c = '%') :=
        hch f (List.mem_cons_self f fs)
      cases fs with
      | nil =>
        cases vs with
        | cons w ws => exact absurd hlen (by simp)
        | nil =>
          have h1 : (reprtxt [f]).toList = f.toList ++ ['=', '%', 'r'] := by
            show ((f ++ "=%r") : String).toList = _
            rw [strToList_append]
            rfl
          rw [h1, List.append_assoc]
          simp only [List.cons_append, List.nil_append,
            List.singleton_append]
          rw [pfL_literal f.toList hcf, pfL_cons_ne '=' (by decide),
            pfL_conv]
          have he : ("=" : String).toList = ['='] := rfl
          cases hres : pfL rest args <;>
            simp [hres, joinComma, strToList_append, he,
              List.append_assoc]
      | cons f2 fs2 =>
        cases vs with
        | nil => exact absurd hlen (by simp)
        | cons v2 vs2 =>
          have hlen' : (f2 :: fs2).length = (v2 :: vs2).length := by
            simpa using hlen
          have hch' : ∀ g ∈ (f2 :: fs2), ∀ c ∈ g.toList, ¬ (c = '%') :=
            fun g hg => hch g (List.mem_cons_of_mem f hg)
          have h1 : (reprtxt (f :: f2 :: fs2)).toList =
              f.toList ++ ('=' :: '%' :: 'r' :: ',' :: ' ' ::
                (reprtxt (f2 :: fs2)).toList) := by
            show ((f ++ "=%r") ++ ", " ++ reprtxt (f2 :: fs2)).toList = _
            rw [strToList_append, strToList_append, strToList_append]
            have ha : ("=%r" : String).toList = ['=', '%', 'r'] := rfl
            have hb : ((", ") : String).toList = [',', ' '] := rfl
            rw [ha, hb]
            simp [List.append_assoc]
          rw [h1, List.append_assoc]
          simp only [List.cons_append, List.nil_append]
          rw [pfL_literal f.toList hcf, pfL_cons_ne '=' (by decide),
            pfL_conv, pfL_cons_ne ',' (by decide),
            pfL_cons_ne ' ' (by decide)]
          rw [← List.cons_append v2 vs2 args,
            ih (v2 :: vs2) rest args hlen' hch']
          have he : ("=" : String).toList = ['='] := rfl
          have hb : ((", ") : String).toList = [',', ' '] := rfl
          have hrj : ∀ (x y : String) (t : List String),
              joinComma (x :: y :: t) = x ++ ", " ++ joinComma (y :: t) :=
            fun x y t => rfl
          cases hres : pfL rest args <;>
            simp [hres, hrj, strToList_append, he, hb,
              List.append_assoc]

theorem mem_strJoin {s : String} {l : List String} (hs : s ∈ l)
    {c : Char} (hc : c ∈ s.toList) : c ∈ (strJoin l).toList := by
  induction l with
  | nil => exact absurd hs (List.not_mem_nil s)
  | cons t lt ih =>
    show c ∈ ((t ++ strJoin lt) : String).toList
    rw [strToList_append]
    rcases List.mem_cons.mp hs with h1 | h2
    · exact List.mem_append_left _ (h1 ▸ hc)
    · exact List.mem_append_right _ (ih h2)

theorem validNames_chars {ty : String} {fs : List String}
    (h : validNames ty fs = true) (s : String) (hs : s = ty ∨ s ∈ fs) :
    ∀ c ∈ s.toList, c.isAlphanum = true ∨ c = '_' := by
  intro c hc
  by_cases hu : c = '_'
  · exact Or.inr hu
  · left
    have hmem : c ∈ (strJoin (ty :: fs)).toList := by
      rcases hs with h1 | h2
      · exact mem_strJoin (List.mem_cons_self ty fs) (h1 ▸ hc)
      · exact mem_strJoin (List.mem_cons_of_mem ty h2) hc
    unfold validNames pyIsAlnum at h
    rw [Bool.and_eq_true] at h
    have hall := h.2
    rw [List.all_eq_true] at hall
    refine hall c ?_
    show c ∈ (strJoin (ty :: fs)).toList.filter (fun d => d ≠ '_')
    rw [List.mem_filter]
    exact ⟨hmem, by simp [hu]⟩

theorem validNames_no_pct {ty : String} {fs : List String}
    (h : validNames ty fs = true) (s : String) (hs : s = ty ∨ s ∈ fs) :
    ∀ c ∈ s.toList, ¬ (c = '%') := by
  intro c hc hpc
  rcases validNames_chars h s hs c hc with h1 | h1
  · rw [hpc] at h1
    exact absurd h1 (by decide)
  · rw [hpc] at h1
    exact absurd h1 (by decide)

/-- C6 counterexample: the claim fails on a generated type with a field
named `__repr__` (which passes validation and compiles): the field's
property line overwrites the generated `__repr__` method, so `repr`
raises the not-callable `TypeError` instead of rendering
`T(__repr__=11)`. -/
theorem C6_counterexample :
    namedTupleFields "T" ["__repr__"] = .ok ⟨"T", ["__repr__"]⟩ ∧
    pyRepr "T" ["__repr__"] ["11"] = .error .notCallable := by
  refine ⟨by decide, by decide⟩

/-- C6 amended: for every generated record type with no field named
`__repr__` (so the generated method survives the property lines), the
generated `__repr__` formats `'TypeName(f1=%r, f2=%r, ...)' % self`,
which renders as `TypeName(field1=value1, field2=value2, ...)` with
each value's own display string substituted verbatim; in particular
`repr(T(11, 22)) == "T(x=11, y=22)"`. -/
theorem C6_repr {ty : String} {fs : List String} {T : RecordType}
    (h : namedTupleFields ty fs = .ok T)
    (hrep : "__repr__" ∉ T.fields) (vals : List String)
    (hlen : vals.length = T.fields.length) :
    pyRepr T.name T.fields vals =
      .ok (T.name ++ "(" ++
        joinComma (List.zipWith (fun f v => f ++ "=" ++ v) T.fields vals)
        ++ ")") := by
  obtain ⟨hname, hfs, hv, _, _⟩ := namedTupleFields_ok h
  have hca : classAttr T.name T.fields "__repr__" =
      some .reprMethod := by
    rw [classAttr_fixed T.name T.fields "__repr__" ⟨_, rfl⟩ hrep]
    rfl
  have hpty : ∀ c ∈ T.name.toList, ¬ (c = '%') := by
    rw [hname]
    exact validNames_no_pct hv ty (Or.inl rfl)
  have hpf : ∀ f ∈ T.fields, ∀ c ∈ f.toList, ¬ (c = '%') := by
    rw [hfs]
    intro f hf
    exact validNames_no_pct hv f (Or.inr hf)
  unfold pyRepr
  rw [hca]
  show (match pfL (reprFormat T.name T.fields).toList vals with
    | some l => Except.ok (String.mk l)
    | none => Except.error PyError.formatError) =
    .ok (T.name ++ "(" ++
      joinComma (List.zipWith (fun f v => f ++ "=" ++ v) T.fields vals)
      ++ ")")
  unfold reprFormat
  have hpo : (("(") : String).toList = ['('] := rfl
  have hpc2 : ((")") : String).toList = [')'] := rfl
  have h1 : ((T.name ++ "(" ++ reprtxt T.fields ++ ")") : String).toList
      = T.name.toList ++
        ('(' :: ((reprtxt T.fields).toList ++ [')'])) := by
    rw [strToList_append, strToList_append, strToList_append, hpo, hpc2]
    simp [List.append_assoc]
  rw [h1]
  have h2 : pfL (T.name.toList ++
      ('(' :: ((reprtxt T.fields).toList ++ [')']))) (vals ++ []) =
        some (T.name.toList ++ ('(' ::
          ((joinComma (List.zipWith (fun f v => f ++ "=" ++ v) T.fields
            vals)).toList ++ [')']))) := by
    rw [pfL_literal T.name.toList hpty, pfL_cons_ne '(' (by decide),
      pfL_reprtxt T.fields vals [')'] [] hlen.symm hpf]
    have h3 : pfL [')'] [] = some [')'] := rfl
    rw [h3]
    simp
  rw [List.append_nil] at h2
  rw [h2]
  show Except.ok (String.mk (T.name.toList ++ ('(' ::
      ((joinComma (List.zipWith (fun f v => f ++ "=" ++ v) T.fields
        vals)).toList ++ [')'])))) =
    Except.ok (T.name ++ "(" ++
      joinComma (List.zipWith (fun f v => f ++ "=" ++ v) T.fields vals)
      ++ ")")
  congr 1
  apply String.ext
  show T.name.toList ++ ('(' ::
      ((joinComma (List.zipWith (fun f v => f ++ "=" ++ v) T.fields
        vals)).toList ++ [')'])) =
    ((T.name ++ "(" ++ joinComma (List.zipWith (fun f v => f ++ "=" ++ v)
      T.fields vals) ++ ")") : String).toList
  rw [strToList_append, strToList_append, strToList_append, hpo, hpc2]
  simp [List.append_assoc]

/-- Witness for the amended C6: `repr(T(11, 22))` for fields `(x, y)`
is the literal string `T(x=11, y=22)`. -/
theorem C6_repr_witness :
    namedTupleFields "T" ["x", "y"] = .ok ⟨"T", ["x", "y"]⟩ ∧
    pyRepr "T" ["x", "y"] ["11", "22"] = .ok "T(x=11, y=22)" := by
  refine ⟨by decide, ?_⟩
  have h := C6_repr (by decide : namedTupleFields "T" ["x", "y"] =
    .ok ⟨"T", ["x", "y"]⟩) (by decide) ["11", "22"] (by decide)
  rw [h]
  decide

theorem splitWsAux_word (w : List Char) :
    ∀ (rest acc : List Char), (∀ c ∈ w, pySpace c = false) →
    splitWsAux (w ++ rest) acc = splitWsAux rest (w.reverse ++ acc) := by
  induction w with
  | nil =>
    intro rest acc _
    simp
  | cons c w' ih =>
    intro rest acc h
    have hc : pySpace c = false := h c (List.mem_cons_self c w')
    show splitWsAux (c :: (w' ++ rest)) acc = _
    rw [splitWsAux.eq_def]
    simp only []
    rw [if_neg (by simp [hc])]
    rw [ih rest (c :: acc) (fun d hd => h d (List.mem_cons_of_mem c hd))]
    rw [List.reverse_cons, List.append_assoc]
    rfl

theorem toList_ne_nil {x : String} (hx : x ≠ "") : x.toList ≠ [] :=
  fun hl => hx (congrArg String.mk hl)

theorem splitWs_join (names : List String) :
    (∀ f ∈ names, f ≠ "") →
    (∀ f ∈ names, ∀ c ∈ f.toList, pySpace c = false) →
    splitWs ((sepJoin " " names).toList) = names := by
  induction names with
  | nil =>
    intro _ _
    rfl
  | cons x ys ih =>
    intro hne hch
    have hx : ∀ c ∈ x.toList, pySpace c = false :=
      hch x (List.mem_cons_self x ys)
    have hxe : x.toList ≠ [] := toList_ne_nil (hne x (List.mem_cons_self x ys))
    cases ys with
    | nil =>
      show splitWs x.toList = [x]
      unfold splitWs
      rw [show x.toList = x.toList ++ [] from (List.append_nil _).symm,
        splitWsAux_word x.toList [] [] hx, List.append_nil]
      cases hts : x.toList.reverse with
      | nil =>
        exact absurd (by simpa using congrArg List.reverse hts) hxe
      | cons a as =>
        show [String.mk (a :: as).reverse] = [x]
        rw [← hts, List.reverse_reverse]
        rfl
    | cons y zs =>
      show splitWs (((x ++ " " ++ sepJoin " " (y :: zs)) :
        String).toList) = x :: y :: zs
      rw [strToList_append, strToList_append, List.append_assoc]
      unfold splitWs
      rw [splitWsAux_word x.toList _ [] hx, List.append_nil]
      have hsp : ((" ") : String).toList = [' '] := rfl
      rw [hsp]
      simp only [List.cons_append, List.nil_append]
      cases hts : x.toList.reverse with
      | nil =>
        exact absurd (by simpa using congrArg List.reverse hts) hxe
      | cons a as =>
        show String.mk (a :: as).reverse ::
          splitWsAux ((sepJoin " " (y :: zs)).toList) [] = x :: y :: zs
        rw [← hts, List.reverse_reverse]
        have htail := ih (fun f hf => hne f (List.mem_cons_of_mem x hf))
          (fun f hf => hch f (List.mem_cons_of_mem x hf))
        exact congrArg (fun l => x :: l) htail

theorem map_commaToSpace_word (w : List Char)
    (h : ∀ c ∈ w, ¬ (c = ',')) : w.map commaToSpace = w := by
  rw [List.map_congr_left (fun c hc => ?_)]
  · exact List.map_id' w
  · unfold commaToSpace
    rw [if_neg (h c hc)]

theorem map_commaToSpace_sepJoin (names : List String) (sep : Char)
    (hsep : commaToSpace sep = ' ')
    (hch : ∀ f ∈ names, ∀ c ∈ f.toList, ¬ (c = ',')) :
    (sepJoin (String.mk [sep]) names).toList.map commaToSpace =
      (sepJoin " " names).toList := by
  induction names with
  | nil => rfl
  | cons x ys ih =>
    have hx : ∀ c ∈ x.toList, ¬ (c = ',') :=
      hch x (List.mem_cons_self x ys)
    cases ys with
    | nil =>
      show x.toList.map commaToSpace = x.toList
      exact map_commaToSpace_word x.toList hx
    | cons y zs =>
      show ((x ++ String.mk [sep] ++ sepJoin (String.mk [sep]) (y :: zs) :
        String).toList).map commaToSpace =
        ((x ++ " " ++ sepJoin " " (y :: zs)) : String).toList
      rw [strToList_append, strToList_append, strToList_append,
        strToList_append, List.map_append, List.map_append]
      have h2 : ((String.mk [sep]).toList).map commaToSpace =
          ((" ") : String).toList := by
        show [commaToSpace sep] = [' ']
        rw [hsep]
      rw [map_commaToSpace_word x.toList hx, h2,
        ih (fun f hf => hch f (List.mem_cons_of_mem x hf))]

theorem parseFields_sepJoin (names : List String) (sep : Char)
    (hsep : commaToSpace sep = ' ')
    (hne : ∀ f ∈ names, f ≠ "")
    (hsp : ∀ f ∈ names, ∀ c ∈ f.toList, pySpace c = false)
    (hcm : ∀ f ∈ names, ∀ c ∈ f.toList, ¬ (c = ',')) :
    parseFields (sepJoin (String.mk [sep]) names) = names := by
  unfold parseFields
  rw [map_commaToSpace_sepJoin names sep hsep hcm]
  exact splitWs_join names hne hsp

/-- C7 counterexample: the factory's first action on the field
specification is the string method `s.replace(',', ' ')`, so a sequence
argument fails with `AttributeError` while the string spelling builds
the type — `create('Point', ['x','y'])` is not equivalent to
`create('Point', 'x y')`, refuting the claim that all three spellings
are accepted. -/
theorem C7_counterexample :
    NamedTuple "Point" (FieldSpec.seq ["x", "y"]) =
      .error .attributeError ∧
    NamedTuple "Point" (FieldSpec.str "x y") =
      .ok ⟨"Point", ["x", "y"]⟩ := by
  exact ⟨rfl, by decide⟩

/-- C7 amended: the factory accepts the field specification only as a
single string; for names without whitespace or commas, the
space-separated and the comma-separated spellings parse to the same
field list (same order, same arity), so they produce identical types. -/
theorem C7_string_spellings (names : List String)
    (hne : ∀ f ∈ names, f ≠ "")
    (hch : ∀ f ∈ names, ∀ c ∈ f.toList,
      pySpace c = false ∧ ¬ (c = ',')) :
    parseFields (sepJoin " " names) = names ∧
    parseFields (sepJoin "," names) = names ∧
    ∀ ty, NamedTupleStr ty (sepJoin " " names) =
      NamedTupleStr ty (sepJoin "," names) := by
  have h1 : parseFields (sepJoin " " names) = names :=
    parseFields_sepJoin names ' ' rfl hne
      (fun f hf c hc => (hch f hf c hc).1)
      (fun f hf c hc => (hch f hf c hc).2)
  have h2 : parseFields (sepJoin "," names) = names :=
    parseFields_sepJoin names ',' rfl hne
      (fun f hf c hc => (hch f hf c hc).1)
      (fun f hf c hc => (hch f hf c hc).2)
  refine ⟨h1, h2, fun ty => ?_⟩
  unfold NamedTupleStr
  rw [h1, h2]

/-- Witness for the amended C7 at `names = [x, y]`: `'x y'` and `'x,y'`
parse to the same field list. -/
theorem C7_string_spellings_witness :
    (∀ f ∈ (["x", "y"] : List String), f ≠ "") ∧
    parseFields (sepJoin " " ["x", "y"]) = ["x", "y"] ∧
    parseFields (sepJoin "," ["x", "y"]) = ["x", "y"] := by
  have h := C7_string_spellings ["x", "y"] (by decide) (by decide)
  exact ⟨by decide, h.1, h.2.1⟩

/-- C8 counterexample: `NamedTuple('T', 'a a')` does fail, but with the
`SyntaxError` raised while compiling the generated class source
(duplicate parameter `a` in the generated `__new__`), not with the
validation `ValueError` the claim names: `'Taa'.isalnum()` passes. -/
theorem C8_counterexample :
    NamedTupleStr "T" "a a" = .error .compileError ∧
    ¬ (NamedTupleStr "T" "a a" = .error .valueError) := by
  exact ⟨by decide, by decide⟩

/-- C8 amended: a duplicated field name is not caught by the name
validation; whenever validation passes, a duplicate makes the factory
fail while evaluating the generated class source — a `SyntaxError`, not
the `InvalidNameError`/`ValueError` class used for illegal
characters. -/
theorem memB_map (f : String → String) (x : String) (l : List String)
    (h : memB x l = true) : memB (f x) (l.map f) = true := by
  induction l with
  | nil => exact absurd h (by simp [memB])
  | cons y t ih =>
    rw [List.map_cons]
    unfold memB at h ⊢
    rcases (by simpa using h : x = y ∨ memB x t = true) with h1 | h2
    · simp [h1]
    · simp [ih h2]

theorem distinctB_map_false (f : String → String) (l : List String)
    (h : distinctB l = false) : distinctB (l.map f) = false := by
  induction l with
  | nil => exact absurd h (by simp [distinctB])
  | cons x t ih =>
    rw [List.map_cons]
    unfold distinctB at h ⊢
    by_cases hm : memB x t
    · rw [memB_map f x t hm]
      rfl
    · have hm' : memB x t = false := by simpa using hm
      rw [hm'] at h
      simp only [Bool.not_false, Bool.true_and] at h
      rw [ih h, Bool.and_false]

theorem C8_duplicate_field (ty : String) (s : String)
    (hval : validNames ty (parseFields s) = true)
    (hdup : distinctB (parseFields s) = false) :
    NamedTupleStr ty s = .error .compileError := by
  unfold NamedTupleStr namedTupleFields
  have h1 : distinctB ((parseFields s).map (mangle ty)) = false :=
    distinctB_map_false (mangle ty) (parseFields s) hdup
  have h2 : distinctB ("cls" :: (parseFields s).map (mangle ty)) =
      false := by
    unfold distinctB
    rw [h1, Bool.and_false]
  have hc : compileOk ty (parseFields s) = false := by
    unfold compileOk newParams
    rw [h2, Bool.and_false]
  rw [hval, hc]
  rfl

/-- Witness for the amended C8 at `NamedTuple('T', 'a a')`. -/
theorem C8_duplicate_field_witness :
    validNames "T" (parseFields "a a") = true ∧
    distinctB (parseFields "a a") = false ∧
    NamedTupleStr "T" "a a" = .error .compileError :=
  ⟨by decide, by decide, C8_duplicate_field "T" "a a" (by decide)
    (by decide)⟩
